import Mathlib

/-!
Verification of the batched molecular-graph bookkeeping of the Tox21
graph-convolution notebook (`graph_convolutional_networks_for_tox21.ipynb`).

The notebook itself contains `data_generator` (the hand-written minibatch
generator), `reshape_y_pred`, and the declaration of the Keras `Input`
layers.  The library pieces it calls (`ConvMol.agglomerate_mols`,
`to_one_hot`, `dc.metrics.Metric`) live elsewhere in the repository and are
modelled here from the specification document, which describes the batched
molecular graph: per-molecule atom feature vectors concatenated into one
ordered sequence, a membership mapping from each atom to its molecule, a
degree slice giving for each degree the contiguous range of atoms of that
degree, and per-degree adjacency lists whose entries are batch-global atom
indices.
-/

namespace Tox21GC

/-- Per-atom feature width: the notebook states every atom carries a
feature vector of length 75 and declares the feature input with that
width. -/
def nFeat : Nat := 75

/-- Maximum node degree: the notebook declares degree-indexed adjacency
inputs for degrees up to 10. -/
def maxDeg : Nat := 10

/-- Number of prediction tasks: the Tox21 benchmark has twelve tasks
(the recorded evaluation prints twelve per-task scores). -/
def n_tasks : Nat := 12

/-- An atom of a molecule graph: its feature vector and the
molecule-local indices of its bonded neighbors. -/
structure Atom where
  features : List Int
  neighbors : List Nat
  deriving Repr, DecidableEq

/-- The degree of an atom is its number of bonded neighbors. -/
def Atom.degree (a : Atom) : Nat := a.neighbors.length

/-- A molecule graph: an ordered list of atoms. -/
structure Mol where
  atoms : List Atom
  deriving Repr, DecidableEq

/-- A well-formed molecule graph: every atom has the fixed feature width,
degree at most `maxDeg`, and neighbor indices that are valid atom indices
of the molecule. -/
def Mol.wf (m : Mol) : Prop :=
  ∀ a ∈ m.atoms, a.features.length = nFeat ∧ a.degree ≤ maxDeg ∧
    ∀ j ∈ a.neighbors, j < m.atoms.length

instance (m : Mol) : Decidable m.wf := by
  unfold Mol.wf; infer_instance

/-- Modelled from the spec: the batched molecular graph produced by the
library routine `ConvMol.agglomerate_mols` (not part of the notebook):
concatenated atom features, the degree slice (one `(start, size)` row per
degree), the atom-to-molecule membership vector, and one adjacency list
per degree whose entries are batch-global atom indices. -/
structure MultiConvMol where
  atom_features : List (List Int)
  deg_slice : List (Nat × Nat)
  membership : List Nat
  deg_adj_lists : List (List (List Nat))
  deriving Repr, DecidableEq

/-- Every atom of every molecule of the batch, tagged with its molecule
index and its molecule-local atom index. -/
def taggedAtoms (mols : List Mol) : List (Nat × Nat × Atom) :=
  (mols.enum.map (fun p => p.2.atoms.enum.map (fun q => (p.1, q.1, q.2)))).flatten

/-- The degree-`d` bucket: the tagged atoms of the batch whose degree is
`d`, in batch order. -/
def atomsOfDeg (mols : List Mol) (d : Nat) : List (Nat × Nat × Atom) :=
  (taggedAtoms mols).filter (fun t => t.2.2.degree == d)

/-- The atoms of the batch in their batched order: bucketed by degree,
degree 0 first. -/
def batchAtoms (mols : List Mol) : List (Nat × Nat × Atom) :=
  ((List.range (maxDeg + 1)).map (fun d => atomsOfDeg mols d)).flatten

/-- The predicate picking out the batch atom tagged `(mi, ai)`. -/
def gidxPred (mi ai : Nat) : Nat × Nat × Atom → Bool :=
  fun t => t.1 == mi && t.2.1 == ai

/-- Remapping of a molecule-local atom index to its batch-global index:
the position, in the batched order, of the atom of molecule `mi` with
local index `ai`. -/
def globalIndex (mols : List Mol) (mi ai : Nat) : Nat :=
  (batchAtoms mols).findIdx (gidxPred mi ai)

/-- The start offset of the degree-`d` block in the batched atom order:
the total size of the buckets of all smaller degrees. -/
def degStart (mols : List Mol) (d : Nat) : Nat :=
  ((List.range d).map (fun e => (atomsOfDeg mols e).length)).sum

/-- Modelled from the spec: the library routine `ConvMol.agglomerate_mols`
(not part of the notebook), the one-shot batched-graph assembly —
concatenate the per-molecule atom feature matrices in degree-bucketed
order, record each atom's molecule in the membership vector, record one
`(start, size)` degree-slice row per degree, and remap each adjacency
entry from its molecule-local index to the batch-global index. -/
def agglomerate_mols (mols : List Mol) : MultiConvMol :=
  { atom_features := (batchAtoms mols).map (fun t => t.2.2.features)
    deg_slice := (List.range (maxDeg + 1)).map
      (fun d => (degStart mols d, (atomsOfDeg mols d).length))
    membership := (batchAtoms mols).map (fun t => t.1)
    deg_adj_lists := (List.range (maxDeg + 1)).map (fun d =>
      (atomsOfDeg mols d).map
        (fun t => t.2.2.neighbors.map (fun j => globalIndex mols t.1 j))) }

/-- Fallible global-index remapping: `none` when no batch atom carries the
tag `(mi, ai)`. -/
def globalIndexOpt (mols : List Mol) (mi ai : Nat) : Option Nat :=
  (batchAtoms mols).findIdx? (gidxPred mi ai)

/-- Fallible remapping of one adjacency row. -/
def adjRowOpt (mols : List Mol) (t : Nat × Nat × Atom) : Option (List Nat) :=
  t.2.2.neighbors.mapM (fun j => globalIndexOpt mols t.1 j)

/-- Modelled from the spec: the batched-graph assembly as a fallible
computation, whose only failure modes are malformed input graphs — an
atom of degree above `maxDeg`, or an adjacency entry that does not remap
to any batch atom. -/
def agglomerate_molsOpt (mols : List Mol) : Option MultiConvMol :=
  if (taggedAtoms mols).all (fun t => decide (t.2.2.degree ≤ maxDeg)) then
    ((List.range (maxDeg + 1)).mapM
        (fun d => (atomsOfDeg mols d).mapM (fun t => adjRowOpt mols t))).map
      (fun adjs =>
        { atom_features := (batchAtoms mols).map (fun t => t.2.2.features)
          deg_slice := (List.range (maxDeg + 1)).map
            (fun d => (degStart mols d, (atomsOfDeg mols d).length))
          membership := (batchAtoms mols).map (fun t => t.1)
          deg_adj_lists := adjs })
  else none

/-- One array of the heterogeneous inputs list fed to the model. -/
inductive NpArr where
  | featM : List (List Int) → NpArr
  | sliceM : List (Nat × Nat) → NpArr
  | memb : List Nat → NpArr
  | adj : List (List Nat) → NpArr
  deriving Repr, DecidableEq

/-- Whether an input array is a degree adjacency list. -/
def NpArr.isAdj : NpArr → Bool
  | .adj _ => true
  | _ => false

/-- The inputs list assembled by the notebook's `data_generator` for one
minibatch: the atom features, the degree slice and the membership vector
of the agglomerated batch, followed by the degree adjacency lists from
index 1 on (the loop `for i in range(1, len(...))`). -/
def batchInputs (X_b : List Mol) : List NpArr :=
  let m := agglomerate_mols X_b
  [NpArr.featM m.atom_features, NpArr.sliceM m.deg_slice, NpArr.memb m.membership]
    ++ (m.deg_adj_lists.drop 1).map NpArr.adj

/-- Modelled from the spec: the library helper `to_one_hot` (not part of
the notebook) — one row per label, with a 1 in the column given by the
label value and 0 elsewhere. -/
def to_one_hot (y : List Nat) (n_classes : Nat) : List (List Nat) :=
  y.map (fun v => (List.range n_classes).map (fun c => if v = c then 1 else 0))

/-- Split a list into consecutive chunks of size `k` (the reshape
`(-1, k, ·)` of a flat array). -/
def chunkList {α : Type} (k : Nat) (l : List α) : List (List α) :=
  if h : k = 0 ∨ l.isEmpty = true then [] else l.take k :: chunkList k (l.drop k)
termination_by l.length
decreasing_by
  simp only [List.length_drop]
  push_neg at h
  have hpos : 0 < l.length := List.length_pos.2 (by simpa using h.2)
  omega

/-- One minibatch as delivered by `dataset.iterbatches` (an external
library iterator, modelled as data): the molecule graphs, the label
matrix and the weight matrix of the minibatch. -/
structure Batch where
  X_b : List Mol
  y_b : List (List Nat)
  w_b : List (List Int)
  deriving Repr, DecidableEq

/-- One `(inputs, labels, weights)` tuple yielded by `data_generator`;
`labels` and `weights` are singleton lists, as in the notebook. -/
structure Yielded where
  inputs : List NpArr
  labels : List (List (List (List Nat)))
  weights : List (List (List Int))
  deriving Repr, DecidableEq

/-- The tuple `data_generator` yields for one minibatch: the assembled
inputs, the one-hot labels reshaped to `(batch, nt, 2)`, and the weights
passed through unchanged. -/
def genOne (nt : Nat) (b : Batch) : Yielded :=
  { inputs := batchInputs b.X_b
    labels := [chunkList nt (to_one_hot b.y_b.flatten 2)]
    weights := [b.w_b] }

/-- The notebook's `data_generator`: for each epoch, for each minibatch of
the dataset (in the deterministic order of `iterbatches`), yield the tuple
for that minibatch.  The `predict` argument is accepted and ignored, as in
the notebook. -/
def data_generator (nt : Nat) (batches : List Batch) (epochs : Nat)
    (predict : Bool) : List Yielded :=
  ((List.range epochs).map (fun _ => batches.map (genOne nt))).flatten

/-- The notebook's `reshape_y_pred`: keep the first `len(y_true)` rows of
the prediction array and, for each sample and task, only the entry at
index 1 of the innermost axis (the positive-class probability). -/
def reshape_y_pred (y_true : List (List Rat)) (y_pred : List (List (List Rat))) :
    List (List Rat) :=
  (y_pred.take y_true.length).map (fun row => row.map (fun pr => pr.getD 1 0))

/-- The arithmetic mean of a list of rationals (`np.mean`). -/
def listMean (l : List Rat) : Rat := l.sum / l.length

/-- Column `j` of a matrix (the per-task slice `[:, j]`). -/
def column (j : Nat) (mat : List (List Rat)) : List Rat :=
  mat.map (fun row => row.getD j 0)

/-- Modelled from the spec: `dc.metrics.Metric` (not part of the
notebook) — a per-task scoring function together with a task averager. -/
structure Metric where
  metricFn : List Rat → List Rat → List Rat → Rat
  task_averager : List Rat → Rat

/-- The notebook's metric object `Metric(roc_auc_score, np.mean)`: the
given per-task scorer averaged over tasks with the arithmetic mean. -/
def mkMeanMetric (f : List Rat → List Rat → List Rat → Rat) : Metric :=
  { metricFn := f, task_averager := listMean }

/-- Modelled from the spec: `Metric.compute_metric` (not part of the
notebook) — apply the per-task scorer to each task's labels, predictions
and weights, then apply the task averager to the list of per-task
scores. -/
def compute_metric (M : Metric) (y yp w : List (List Rat)) (nt : Nat) : Rat :=
  M.task_averager ((List.range nt).map
    (fun t => M.metricFn (column t y) (column t yp) (column t w)))

/-- Sample data: a two-atom molecule with one bond. -/
def sampleMolA : Mol :=
  { atoms := [{ features := List.replicate 75 0, neighbors := [1] },
              { features := List.replicate 75 0, neighbors := [0] }] }

/-- Sample data: a single isolated atom. -/
def sampleMolB : Mol :=
  { atoms := [{ features := List.replicate 75 1, neighbors := [] }] }

/-- A sample two-molecule minibatch. -/
def sampleBatchMols : List Mol := [sampleMolA, sampleMolB]

/-- A sample minibatch with binary labels for two tasks. -/
def sampleBatch : Batch :=
  { X_b := sampleBatchMols
    y_b := [[0, 1], [1, 0]]
    w_b := [[1, 1], [1, 0]] }

/-- Sample ground-truth label matrix (one sample, one task). -/
def sampleYT : List (List Rat) := [[1]]

/-- Sample padded prediction array (two samples, one task, two classes). -/
def sampleYP : List (List (List Rat)) := [[[1, 3]], [[0, 2]]]

theorem mem_taggedAtoms {mols : List Mol} {mi ai : Nat} {a : Atom} :
    (mi, ai, a) ∈ taggedAtoms mols ↔
      ∃ m, mols[mi]? = some m ∧ m.atoms[ai]? = some a := by
  simp only [taggedAtoms, List.mem_flatten, List.mem_map]
  constructor
  · rintro ⟨s, ⟨⟨i, m⟩, hm, rfl⟩, hs⟩
    rcases List.mem_map.1 hs with ⟨⟨j, b⟩, hj, heq⟩
    obtain ⟨rfl, rfl, rfl⟩ := Prod.mk.injEq .. ▸ heq
    exact ⟨m, List.mk_mem_enum_iff_getElem?.1 hm, List.mk_mem_enum_iff_getElem?.1 hj⟩
  · rintro ⟨m, hm, ha⟩
    refine ⟨(m.atoms.enum.map (fun q => (mi, q.1, q.2))), ⟨(mi, m), ?_, rfl⟩, ?_⟩
    · exact List.mk_mem_enum_iff_getElem?.2 hm
    · exact List.mem_map.2 ⟨(ai, a), List.mk_mem_enum_iff_getElem?.2 ha, rfl⟩

theorem mem_batchAtoms {mols : List Mol} {t : Nat × Nat × Atom} :
    t ∈ batchAtoms mols ↔ t ∈ taggedAtoms mols ∧ t.2.2.degree ≤ maxDeg := by
  simp only [batchAtoms, List.mem_flatten, List.mem_map]
  constructor
  · rintro ⟨s, ⟨d, hd, rfl⟩, hs⟩
    rcases List.mem_filter.1 hs with ⟨hmem, hdeg⟩
    have : t.2.2.degree = d := by simpa using hdeg
    exact ⟨hmem, this ▸ Nat.lt_succ_iff.1 (List.mem_range.1 hd)⟩
  · rintro ⟨hmem, hdeg⟩
    refine ⟨atomsOfDeg mols t.2.2.degree, ⟨t.2.2.degree, ?_, rfl⟩, ?_⟩
    · exact List.mem_range.2 (Nat.lt_succ_of_le hdeg)
    · exact List.mem_filter.2 ⟨hmem, by simp⟩

/-- The global index remapping is correct: for a valid, degree-bounded
atom `(mi, ai)`, the batched atom sequence holds exactly that atom at its
global index (in particular the global index is in range). -/
theorem globalIndex_spec {mols : List Mol} {mi ai : Nat} {m : Mol} {a : Atom}
    (hm : mols[mi]? = some m) (ha : m.atoms[ai]? = some a) (hd : a.degree ≤ maxDeg) :
    globalIndex mols mi ai < (batchAtoms mols).length ∧
      (batchAtoms mols)[globalIndex mols mi ai]? = some (mi, ai, a) := by
  have hmem : (mi, ai, a) ∈ batchAtoms mols :=
    mem_batchAtoms.2 ⟨mem_taggedAtoms.2 ⟨m, hm, ha⟩, hd⟩
  have hex : ∃ x ∈ batchAtoms mols, gidxPred mi ai x = true :=
    ⟨(mi, ai, a), hmem, by simp [gidxPred]⟩
  have hlt : globalIndex mols mi ai < (batchAtoms mols).length :=
    List.findIdx_lt_length_of_exists hex
  refine ⟨hlt, ?_⟩
  obtain ⟨t, ht⟩ : ∃ t, (batchAtoms mols)[globalIndex mols mi ai]? = some t :=
    ⟨_, List.getElem?_eq_getElem hlt⟩
  have hpt : gidxPred mi ai t = true := List.findIdx_of_getElem?_eq_some ht
  have htmem : t ∈ batchAtoms mols := List.getElem?_mem ht
  obtain ⟨t1, t2, t3⟩ := t
  have h12 : t1 = mi ∧ t2 = ai := by
    simpa [gidxPred] using hpt
  obtain ⟨rfl, rfl⟩ := h12
  obtain ⟨m', hm', ha'⟩ := mem_taggedAtoms.1 (mem_batchAtoms.1 htmem).1
  rw [hm] at hm'
  obtain rfl : m = m' := by injection hm'
  rw [ha] at ha'
  obtain rfl : a = t3 := by injection ha'
  exact ht

theorem degStart_zero (mols : List Mol) : degStart mols 0 = 0 := rfl

theorem degStart_succ (mols : List Mol) (d : Nat) :
    degStart mols (d + 1) = degStart mols d + (atomsOfDeg mols d).length := by
  simp [degStart, List.range_succ]

theorem length_batchAtoms (mols : List Mol) :
    (batchAtoms mols).length = degStart mols (maxDeg + 1) := by
  simp only [batchAtoms, degStart, List.length_flatten, List.map_map]
  rfl

/-- **C1**: for every well-formed minibatch of molecule graphs, the
batched molecular graph assembled by the generator satisfies the data
model invariants: the membership vector assigns each batch atom exactly
one molecule, and that molecule index is valid; every adjacency entry of
every degree-grouped adjacency list is a valid atom index within the
batch; and the degree slices tile the atom index range `[0, n_atoms)`
consecutively — each slice starts where the previous one ends, the first
starts at 0, and the last ends at `n_atoms` — so they partition it with
no gaps and no overlaps. -/
theorem c1_batched_graph_invariants (mols : List Mol) (hwf : ∀ m ∈ mols, m.wf) :
    (agglomerate_mols mols).membership.length =
      (agglomerate_mols mols).atom_features.length ∧
    (∀ v ∈ (agglomerate_mols mols).membership, v < mols.length) ∧
    (∀ adj ∈ (agglomerate_mols mols).deg_adj_lists, ∀ row ∈ adj, ∀ e ∈ row,
      e < (agglomerate_mols mols).atom_features.length) ∧
    (agglomerate_mols mols).deg_slice =
      (List.range (maxDeg + 1)).map
        (fun d => (degStart mols d, (atomsOfDeg mols d).length)) ∧
    degStart mols 0 = 0 ∧
    (∀ d, degStart mols (d + 1) = degStart mols d + (atomsOfDeg mols d).length) ∧
    degStart mols (maxDeg + 1) = (agglomerate_mols mols).atom_features.length := by
  have hlen : (agglomerate_mols mols).atom_features.length = (batchAtoms mols).length := by
    simp [agglomerate_mols]
  refine ⟨by simp [agglomerate_mols], ?_, ?_, rfl, rfl, degStart_succ mols, ?_⟩
  · intro v hv
    rcases List.mem_map.1 hv with ⟨t, ht, rfl⟩
    obtain ⟨m, hm, -⟩ := mem_taggedAtoms.1 (mem_batchAtoms.1 ht).1
    exact (List.getElem?_eq_some.1 hm).1
  · intro adj hadj row hrow e he
    rcases List.mem_map.1 hadj with ⟨d, -, rfl⟩
    rcases List.mem_map.1 hrow with ⟨⟨mi, ai, b⟩, htmem, rfl⟩
    rcases List.mem_map.1 he with ⟨j, hj, rfl⟩
    obtain ⟨m, hm, hb⟩ :=
      mem_taggedAtoms.1 (List.mem_filter.1 htmem).1
    have hmmem : m ∈ mols := List.getElem?_mem hm
    have hbmem : b ∈ m.atoms := List.getElem?_mem hb
    have hjlt : j < m.atoms.length := (hwf m hmmem b hbmem).2.2 j hj
    obtain ⟨na, hna⟩ : ∃ na, m.atoms[j]? = some na :=
      ⟨_, List.getElem?_eq_getElem hjlt⟩
    have hdeg : na.degree ≤ maxDeg := (hwf m hmmem na (List.getElem?_mem hna)).2.1
    have := (globalIndex_spec hm hna hdeg).1
    simpa [hlen] using this
  · rw [hlen, length_batchAtoms]

/-- Witness for C1 at a concrete two-molecule minibatch. -/
theorem c1_batched_graph_invariants_witness :
    (∀ m ∈ sampleBatchMols, m.wf) ∧
      (∀ v ∈ (agglomerate_mols sampleBatchMols).membership, v < sampleBatchMols.length) :=
  ⟨by decide, (c1_batched_graph_invariants sampleBatchMols (by decide)).2.1⟩

/-- **C3**: the batched-graph assembly is exactly the one-shot
transformation described by the spec: the batched feature matrix is the
concatenation of the per-molecule atom feature rows (in the bucketed
batch order); each atom of each molecule of the batch appears at its
batch-global index with its features and its molecule recorded there;
atoms are bucketed by node degree; and each per-degree adjacency list
carries, for each atom of that degree, its neighbor indices remapped from
molecule-local to batch-global. -/
theorem c3_assembly_concat_bucket_remap (mols : List Mol) (hwf : ∀ m ∈ mols, m.wf) :
    (∀ mi ai m a, mols[mi]? = some m → m.atoms[ai]? = some a →
      (batchAtoms mols)[globalIndex mols mi ai]? = some (mi, ai, a) ∧
      (agglomerate_mols mols).atom_features[globalIndex mols mi ai]? = some a.features ∧
      (agglomerate_mols mols).membership[globalIndex mols mi ai]? = some mi) ∧
    (agglomerate_mols mols).atom_features =
      (batchAtoms mols).map (fun t => t.2.2.features) ∧
    batchAtoms mols =
      ((List.range (maxDeg + 1)).map (fun d => atomsOfDeg mols d)).flatten ∧
    (agglomerate_mols mols).deg_adj_lists =
      (List.range (maxDeg + 1)).map (fun d =>
        (atomsOfDeg mols d).map
          (fun t => t.2.2.neighbors.map (fun j => globalIndex mols t.1 j))) := by
  refine ⟨?_, rfl, rfl, rfl⟩
  intro mi ai m a hm ha
  have hdeg : a.degree ≤ maxDeg :=
    (hwf m (List.getElem?_mem hm) a (List.getElem?_mem ha)).2.1
  have hspec := globalIndex_spec hm ha hdeg
  refine ⟨hspec.2, ?_, ?_⟩
  · show ((batchAtoms mols).map (fun t => t.2.2.features))[globalIndex mols mi ai]? = _
    rw [List.getElem?_map, hspec.2]
    rfl
  · show ((batchAtoms mols).map (fun t => t.1))[globalIndex mols mi ai]? = _
    rw [List.getElem?_map, hspec.2]
    rfl

/-- Witness for C3 at a concrete minibatch and atom. -/
theorem c3_assembly_concat_bucket_remap_witness :
    (∀ m ∈ sampleBatchMols, m.wf) ∧
      (agglomerate_mols sampleBatchMols).membership[globalIndex sampleBatchMols 0 0]? =
        some 0 :=
  ⟨by decide,
    ((c3_assembly_concat_bucket_remap sampleBatchMols (by decide)).1 0 0 sampleMolA
      { features := List.replicate 75 0, neighbors := [1] } rfl rfl).2.2⟩

theorem mapM_option_eq_some {α β : Type} (f : α → Option β) (g : α → β) :
    ∀ l : List α, (∀ x ∈ l, f x = some (g x)) → l.mapM f = some (l.map g) := by
  intro l
  induction l with
  | nil => intro _; rfl
  | cons a l ih =>
    intro h
    rw [List.mapM_cons, h a (List.mem_cons_self a l),
      ih (fun x hx => h x (List.mem_cons_of_mem a hx))]
    rfl

theorem globalIndexOpt_eq {mols : List Mol} {mi ai : Nat} {m : Mol} {a : Atom}
    (hm : mols[mi]? = some m) (ha : m.atoms[ai]? = some a) (hd : a.degree ≤ maxDeg) :
    globalIndexOpt mols mi ai = some (globalIndex mols mi ai) := by
  have h := (globalIndex_spec hm ha hd).1
  simp only [globalIndexOpt, globalIndex] at h ⊢
  exact List.findIdx?_eq_some_iff_findIdx_eq.2 ⟨h, rfl⟩

/-- **C7**: the batched-graph assembly has no failure modes beyond
malformed input graphs: on every well-formed minibatch the fallible
assembly succeeds, returning exactly the batched graph (the input
molecule list is consumed by value and is not modified — the assembly is
a pure function of the minibatch). -/
theorem c7_assembly_total_on_wf (mols : List Mol) (hwf : ∀ m ∈ mols, m.wf) :
    agglomerate_molsOpt mols = some (agglomerate_mols mols) := by
  have hall : (taggedAtoms mols).all (fun t => decide (t.2.2.degree ≤ maxDeg)) = true := by
    rw [List.all_eq_true]
    rintro ⟨mi, ai, a⟩ ht
    obtain ⟨m, hm, ha⟩ := mem_taggedAtoms.1 ht
    simpa using (hwf m (List.getElem?_mem hm) a (List.getElem?_mem ha)).2.1
  have hinner : ∀ d ∈ List.range (maxDeg + 1),
      (atomsOfDeg mols d).mapM (fun t => adjRowOpt mols t) =
        some ((atomsOfDeg mols d).map
          (fun t => t.2.2.neighbors.map (fun j => globalIndex mols t.1 j))) := by
    intro d _
    apply mapM_option_eq_some
    rintro ⟨mi, ai, b⟩ ht
    obtain ⟨m, hm, hb⟩ := mem_taggedAtoms.1 (List.mem_filter.1 ht).1
    simp only [adjRowOpt]
    apply mapM_option_eq_some
    intro j hj
    have hmmem : m ∈ mols := List.getElem?_mem hm
    have hjlt : j < m.atoms.length := (hwf m hmmem b (List.getElem?_mem hb)).2.2 j hj
    obtain ⟨na, hna⟩ : ∃ na, m.atoms[j]? = some na :=
      ⟨_, List.getElem?_eq_getElem hjlt⟩
    have hdeg : na.degree ≤ maxDeg := (hwf m hmmem na (List.getElem?_mem hna)).2.1
    exact globalIndexOpt_eq hm hna hdeg
  have hadj := mapM_option_eq_some _ _ _ hinner
  unfold agglomerate_molsOpt
  rw [if_pos hall, hadj]
  rfl

/-- Witness for C7 at a concrete two-molecule minibatch. -/
theorem c7_assembly_total_on_wf_witness :
    (∀ m ∈ sampleBatchMols, m.wf) ∧
      agglomerate_molsOpt sampleBatchMols = some (agglomerate_mols sampleBatchMols) :=
  ⟨by decide, c7_assembly_total_on_wf sampleBatchMols (by decide)⟩

/-- Counterexample to C2 as stated: at a concrete minibatch the inputs
list assembled by `data_generator` contains 10 adjacency arrays — one per
degree from 1 to `maxDeg` — not one per degree bucket from 0 up to
`maxDeg` (11): the generator's loop starts at index 1 of the adjacency
lists and skips the degree-0 one. -/
theorem c2_input_contract_counterexample :
    ¬ ((batchInputs sampleBatchMols).filter NpArr.isAdj).length = maxDeg + 1 := by
  decide

/-- **C2 (amended)**: every inputs tuple fed to the model consists of the
feature matrix (whose per-atom rows have the fixed width 75 on
well-formed input), the degree-slice array (one width-2 row per degree,
`maxDeg + 1` rows), the membership vector, and then one integer
adjacency-list array per degree bucket from degree 1 up to the maximum
degree 10 — 10 adjacency arrays, one fewer than the 11 declared
`deg_adj` Input layers, because the generator skips the degree-0 list. -/
theorem c2_amended_input_contract (X_b : List Mol) (hwf : ∀ m ∈ X_b, m.wf) :
    (batchInputs X_b).length = 13 ∧
    batchInputs X_b =
      [NpArr.featM (agglomerate_mols X_b).atom_features,
       NpArr.sliceM (agglomerate_mols X_b).deg_slice,
       NpArr.memb (agglomerate_mols X_b).membership] ++
        ((agglomerate_mols X_b).deg_adj_lists.drop 1).map NpArr.adj ∧
    (∀ row ∈ (agglomerate_mols X_b).atom_features, row.length = nFeat) ∧
    (agglomerate_mols X_b).deg_slice.length = maxDeg + 1 ∧
    (agglomerate_mols X_b).deg_adj_lists.length = maxDeg + 1 ∧
    ((batchInputs X_b).filter NpArr.isAdj).length = maxDeg := by
  refine ⟨?_, rfl, ?_, ?_, ?_, ?_⟩
  · simp [batchInputs, agglomerate_mols, maxDeg]
  · intro row hrow
    have hrow' : row ∈ (batchAtoms X_b).map (fun t => t.2.2.features) := hrow
    rcases List.mem_map.1 hrow' with ⟨t, ht, rfl⟩
    obtain ⟨mi, ai, a⟩ := t
    obtain ⟨m, hm, ha⟩ := mem_taggedAtoms.1 (mem_batchAtoms.1 ht).1
    exact (hwf m (List.getElem?_mem hm) a (List.getElem?_mem ha)).1
  · simp [agglomerate_mols]
  · simp [agglomerate_mols]
  · have hfm : ∀ ls : List (List (List Nat)),
        ((ls.map NpArr.adj).filter NpArr.isAdj).length = ls.length := by
      intro ls
      induction ls with
      | nil => rfl
      | cons x ls ih => simp [NpArr.isAdj, ih]
    simp only [batchInputs, List.filter_append, List.length_append]
    rw [hfm]
    simp [agglomerate_mols, NpArr.isAdj, maxDeg]

/-- Witness for the amended C2 at a concrete minibatch. -/
theorem c2_amended_input_contract_witness :
    (∀ m ∈ sampleBatchMols, m.wf) ∧ (batchInputs sampleBatchMols).length = 13 :=
  ⟨by decide, (c2_amended_input_contract sampleBatchMols (by decide)).1⟩

/-- **C4**: the batched representation is rebuilt fresh for every
minibatch: the whole output of `data_generator` is `epochs` repetitions
of the per-minibatch map of `genOne`; within one pass the i-th yield is a
function of the i-th minibatch alone; and two datasets that agree on
their i-th minibatch produce the same i-th yield, for any predict
flags — no batched representation is carried over between yields. -/
theorem c4_fresh_per_minibatch (nt : Nat) (bs1 bs2 : List Batch) (epochs : Nat)
    (p1 p2 : Bool) (i : Nat) :
    data_generator nt bs1 epochs p1 =
      ((List.range epochs).map (fun _ => bs1.map (genOne nt))).flatten ∧
    (data_generator nt bs1 1 p1)[i]? = (bs1[i]?).map (genOne nt) ∧
    (bs1[i]? = bs2[i]? →
      (data_generator nt bs1 1 p1)[i]? = (data_generator nt bs2 1 p2)[i]?) := by
  have h1 : ∀ (bs : List Batch) (p : Bool),
      data_generator nt bs 1 p = bs.map (genOne nt) := by
    intro bs p
    simp [data_generator]
  refine ⟨rfl, ?_, ?_⟩
  · rw [h1, List.getElem?_map]
  · intro h
    rw [h1, h1, List.getElem?_map, List.getElem?_map, h]

/-- Witness for C4 at a concrete dataset and index. -/
theorem c4_fresh_per_minibatch_witness :
    ([sampleBatch] : List Batch)[0]? = ([sampleBatch] : List Batch)[0]? ∧
      (data_generator 2 [sampleBatch] 1 true)[0]? =
        (data_generator 2 [sampleBatch] 1 false)[0]? :=
  ⟨rfl, (c4_fresh_per_minibatch 2 [sampleBatch] [sampleBatch] 1 true false 0).2.2 rfl⟩

/-- **C9**: the output of `data_generator` is deterministic and does not
depend on its `predict` argument: with the same dataset, task count and
epochs, any two predict flags (including two identical runs) yield equal
sequences of `(inputs, labels, weights)` tuples. -/
theorem c9_predict_independent (nt : Nat) (bs : List Batch) (epochs : Nat)
    (p1 p2 : Bool) :
    data_generator nt bs epochs p1 = data_generator nt bs epochs p2 := rfl

theorem chunkList_step {α : Type} {k : Nat} (hk : 0 < k) {l : List α} (hl : l ≠ []) :
    chunkList k l = l.take k :: chunkList k (l.drop k) := by
  rw [chunkList.eq_def]
  rw [dif_neg]
  rintro (h0 | he)
  · omega
  · exact hl (by simpa using he)

/-- Chunking a flattened list of uniform-width rows recovers the rows:
the reshape `(-1, k, ·)` inverts the flatten. -/
theorem chunkList_flatten {α : Type} (k : Nat) (hk : 0 < k) (rows : List (List α))
    (h : ∀ r ∈ rows, r.length = k) : chunkList k rows.flatten = rows := by
  induction rows with
  | nil =>
    rw [List.flatten_nil, chunkList.eq_def]
    simp
  | cons r rows ih =>
    have hr : r.length = k := h r (List.mem_cons_self r rows)
    have hlne : r ++ rows.flatten ≠ [] := by
      intro he
      have hre : r = [] := (List.append_eq_nil.1 he).1
      rw [hre] at hr
      simp at hr
      omega
    rw [List.flatten_cons, chunkList_step hk hlne, List.take_left' hr,
      List.drop_left' hr]
    exact congrArg (fun x => r :: x)
      (ih (fun x hx => h x (List.mem_cons_of_mem r hx)))

/-- **C10**: every labels array yielded by `data_generator` is a one-hot
encoding: for a minibatch whose label matrix has one width-`nt` row of
binary labels per sample, the yielded labels are a single array of shape
`(batch, nt, 2)` in which every innermost pair is `[1, 0]` or `[0, 1]` —
exactly one 1 and one 0, summing to 1. -/
theorem c10_labels_one_hot (nt : Nat) (b : Batch) (hnt : 0 < nt)
    (hlen : ∀ r ∈ b.y_b, r.length = nt) (hbin : ∀ r ∈ b.y_b, ∀ v ∈ r, v < 2) :
    ∃ L, (genOne nt b).labels = [L] ∧
      L.length = b.y_b.length ∧
      (∀ row ∈ L, row.length = nt) ∧
      (∀ row ∈ L, ∀ pr ∈ row, pr = [1, 0] ∨ pr = [0, 1]) := by
  have hchunk : chunkList nt (to_one_hot b.y_b.flatten 2) =
      b.y_b.map (fun r => to_one_hot r 2) := by
    have hone : to_one_hot b.y_b.flatten 2 =
        (b.y_b.map (fun r => to_one_hot r 2)).flatten := by
      simp [to_one_hot, List.map_flatten]
    rw [hone]
    apply chunkList_flatten nt hnt
    intro r hr
    rcases List.mem_map.1 hr with ⟨s, hs, rfl⟩
    simpa [to_one_hot] using hlen s hs
  refine ⟨b.y_b.map (fun r => to_one_hot r 2), ?_, by simp, ?_, ?_⟩
  · show [chunkList nt (to_one_hot b.y_b.flatten 2)] = _
    rw [hchunk]
  · intro row hrow
    rcases List.mem_map.1 hrow with ⟨s, hs, rfl⟩
    simpa [to_one_hot] using hlen s hs
  · intro row hrow pr hpr
    rcases List.mem_map.1 hrow with ⟨s, hs, rfl⟩
    rcases List.mem_map.1 hpr with ⟨v, hv, rfl⟩
    have hv2 : v < 2 := hbin s hs v hv
    interval_cases v
    · left; decide
    · right; decide

/-- Witness for C10 at a concrete minibatch with two binary tasks. -/
theorem c10_labels_one_hot_witness :
    (∀ r ∈ sampleBatch.y_b, r.length = 2) ∧
      ∃ L, (genOne 2 sampleBatch).labels = [L] ∧
        L.length = sampleBatch.y_b.length ∧
        (∀ row ∈ L, row.length = 2) ∧
        (∀ row ∈ L, ∀ pr ∈ row, pr = [1, 0] ∨ pr = [0, 1]) :=
  ⟨by decide, c10_labels_one_hot 2 sampleBatch (by decide) (by decide) (by decide)⟩

/-- **C5**: the scalar metric value reported for a dataset is the
arithmetic mean (`np.mean`) over the task indices of the per-task scores
the wrapped scorer computes on that dataset's labels, predictions and
weights. -/
theorem c5_metric_mean_over_tasks (f : List Rat → List Rat → List Rat → Rat)
    (y yp w : List (List Rat)) (nt : Nat) :
    compute_metric (mkMeanMetric f) y yp w nt =
      ((List.range nt).map
        (fun t => f (column t y) (column t yp) (column t w))).sum / nt := by
  simp [compute_metric, mkMeanMetric, listMean]

/-- **C8**: `reshape_y_pred` drops the padding rows beyond the first
`len(y_true)` samples and keeps, for every sample and task, exactly the
class-1 entry: the result has one row per ground-truth sample, row `i` is
the task-wise projection of `y_pred[i]`, and the entry at `(i, t)` is
exactly `y_pred[i][t][1]`. -/
theorem c8_reshape_y_pred (y_true : List (List Rat)) (y_pred : List (List (List Rat)))
    (hrows : y_true.length ≤ y_pred.length)
    (hdepth : ∀ row ∈ y_pred, ∀ pr ∈ row, 2 ≤ pr.length) :
    (reshape_y_pred y_true y_pred).length = y_true.length ∧
    (∀ i, i < y_true.length →
      (reshape_y_pred y_true y_pred)[i]? =
        (y_pred[i]?).map (fun row => row.map (fun pr => pr.getD 1 0))) ∧
    (∀ (i t : Nat) (prow : List (List Rat)) (pr : List Rat),
      i < y_true.length → y_pred[i]? = some prow → prow[t]? = some pr →
      ((reshape_y_pred y_true y_pred)[i]?).bind (fun r => r[t]?) =
        some (pr.getD 1 0) ∧
      pr[1]? = some (pr.getD 1 0)) := by
  have hget : ∀ i, i < y_true.length →
      (reshape_y_pred y_true y_pred)[i]? =
        (y_pred[i]?).map (fun row => row.map (fun pr => pr.getD 1 0)) := by
    intro i hi
    simp only [reshape_y_pred, List.getElem?_map]
    rw [List.getElem?_take_of_lt hi]
  refine ⟨?_, hget, ?_⟩
  · simp [reshape_y_pred, Nat.min_eq_left hrows]
  · intro i t prow pr hi hrow hpr
    have hprmem : pr ∈ prow := List.getElem?_mem hpr
    have hprowmem : prow ∈ y_pred := List.getElem?_mem hrow
    have hlen2 : 2 ≤ pr.length := hdepth prow hprowmem pr hprmem
    obtain ⟨x, hx⟩ : ∃ x, pr[1]? = some x :=
      ⟨_, List.getElem?_eq_getElem (by omega)⟩
    have hgd : pr.getD 1 0 = x := by
      rw [List.getD_eq_getElem?_getD, hx]
      rfl
    constructor
    · rw [hget i hi, hrow]
      show (prow.map (fun q => q.getD 1 0))[t]? = some (pr.getD 1 0)
      rw [List.getElem?_map, hpr]
      rfl
    · rw [hx, hgd]

/-- Witness for C8 at a concrete padded prediction array. -/
theorem c8_reshape_y_pred_witness :
    sampleYT.length ≤ sampleYP.length ∧
      (reshape_y_pred sampleYT sampleYP).length = sampleYT.length :=
  ⟨by decide, (c8_reshape_y_pred sampleYT sampleYP (by decide) (by decide)).1⟩

end Tox21GC
